import Mathlib

/-!
Verification of the `cdpem_core` numerical components of the
Communication-Driven Econometric Policy Model repository.

The Python sources are shallowly embedded: floating-point numbers become
real numbers, numpy matrices become `Matrix (Fin n) (Fin m) ℝ`, and the
global `np.random` generator becomes an explicit state (a natural number)
threaded through every stochastic call, together with an abstract family
of draw functions (`NpRandom`).  Each call to a numpy sampling primitive
consumes the current generator state and advances it by `next`;
`np.random.seed s` replaces the state by `seedState s`.
-/

open Matrix

open scoped ENNReal NNReal

namespace CDEPM

/-- Model of the global `np.random` generator used by `engine.py`:
`seedState` models `np.random.seed`, `next` advances the hidden state by
one primitive call, `mvnormal2` models `np.random.multivariate_normal([0,0], cov)`
and `normal` models `np.random.normal(0, sigma)`, each read off the current
hidden state. -/
structure NpRandom where
  seedState : ℕ → ℕ
  next : ℕ → ℕ
  mvnormal2 : Matrix (Fin 2) (Fin 2) ℝ → ℕ → (Fin 2 → ℝ)
  normal : ℝ → ℕ → ℝ

/-- The system matrices `A, B, C, Q, R` handed to `CDEPMPolicyEngine.__init__`
(`engine.py` lines 15-33).  `B` is the n×1 column, kept as a vector. -/
structure SysMat (n m : ℕ) where
  A : Matrix (Fin n) (Fin n) ℝ
  B : Fin n → ℝ
  C : Matrix (Fin m) (Fin n) ℝ
  Q : Matrix (Fin n) (Fin n) ℝ
  R : Matrix (Fin m) (Fin m) ℝ

/-- Mutable state of `CDEPMPolicyEngine`: the Kalman estimate and covariance
plus the PID tracking variables (`engine.py` lines 35-53). -/
structure EngState (n : ℕ) where
  x_hat : Fin n → ℝ
  P : Matrix (Fin n) (Fin n) ℝ
  u_prev : ℝ
  e_prev : ℝ
  e_int : ℝ

/-- `__init__` state initialisation: `x_hat = zeros`, `P = 0.1 * eye(n)`,
`u_prev = e_prev = e_int = 0` (`engine.py` lines 36-53). -/
def initEng (n : ℕ) : EngState n :=
  { x_hat := fun _ => 0
    P := (0.1 : ℝ) • (1 : Matrix (Fin n) (Fin n) ℝ)
    u_prev := 0
    e_prev := 0
    e_int := 0 }

/-- `CDEPMPolicyEngine.kalman_update` (`engine.py` lines 55-75):
prediction `x_pred = A x̂ + B u`, `P_pred = A P Aᵀ + Q`, innovation
covariance `S = C P_pred Cᵀ + R`, gain `K = P_pred Cᵀ S⁻¹`, then
`x̂ ← x_pred + K (z - C x_pred)` and `P ← (I - K C) P_pred`.
The Python method returns the updated `self.x_hat`, which is the `x_hat`
field of the state returned here. -/
noncomputable def kalman_update {n m : ℕ} (M : SysMat n m) (st : EngState n)
    (z : Fin m → ℝ) (u_eff_prev : ℝ) : EngState n :=
  let x_pred := M.A.mulVec st.x_hat + u_eff_prev • M.B
  let P_pred := M.A * st.P * M.Aᵀ + M.Q
  let S := M.C * P_pred * M.Cᵀ + M.R
  let K := P_pred * M.Cᵀ * S⁻¹
  let y := z - M.C.mulVec x_pred
  { st with x_hat := x_pred + K.mulVec y, P := (1 - K * M.C) * P_pred }

/-- `CDEPMPolicyEngine.policy_update` (`engine.py` lines 77-99): PID law on
the first state component.  The Python method returns `u_t`, which is the
`u_prev` field of the state returned here. -/
def policy_update {n : ℕ} [NeZero n] (Kp Ki Kd pi_target : ℝ)
    (st : EngState n) : EngState n :=
  let pi_hat := st.x_hat 0
  let e_t := pi_target - pi_hat
  let e_int := st.e_int + e_t
  let e_der := e_t - st.e_prev
  let u_t := st.u_prev + Kp * e_t + Ki * e_int + Kd * e_der
  { st with u_prev := u_t, e_prev := e_t, e_int := e_int }

/-- Parameters of one `simulate_cdpm` run: system matrices, PID gains,
inflation target and channel noise level (`engine.py` lines 110-123). -/
structure Params where
  M : SysMat 2 2
  Kp : ℝ
  Ki : ℝ
  Kd : ℝ
  pi_target : ℝ
  channel_sigma : ℝ

/-- Loop state of `simulate_cdpm`: engine state, true plant state,
previous effective control and the `np.random` generator state. -/
structure SimState where
  eng : EngState 2
  x_true : Fin 2 → ℝ
  u_eff_prev : ℝ
  g : ℕ

/-- The history dict built by `simulate_cdpm` (`engine.py` lines 159-166). -/
structure History where
  pi_true : List ℝ
  y_true : List ℝ
  pi_hat : List ℝ
  y_hat : List ℝ
  u : List ℝ
  u_eff : List ℝ

def History.empty : History := ⟨[], [], [], [], [], []⟩

/-- One iteration of the `simulate_cdpm` loop (`engine.py` lines 168-194):
draw process noise `w`, evolve the plant with the PREVIOUS effective
control, draw observation noise `v`, observe, Kalman-update, run the PID
controller, add channel noise, append all values to the history, and only
then replace `u_eff_prev`.  Three numpy draws advance the generator. -/
noncomputable def simStep (rng : NpRandom) (p : Params) :
    SimState × History → SimState × History := fun sh =>
  let s := sh.1
  let h := sh.2
  let w := rng.mvnormal2 p.M.Q s.g
  let g1 := rng.next s.g
  let x_true := p.M.A.mulVec s.x_true + s.u_eff_prev • p.M.B + w
  let v := rng.mvnormal2 p.M.R g1
  let g2 := rng.next g1
  let z := p.M.C.mulVec x_true + v
  let eng1 := kalman_update p.M s.eng z s.u_eff_prev
  let eng2 := policy_update p.Kp p.Ki p.Kd p.pi_target eng1
  let u_t := eng2.u_prev
  let noise := rng.normal p.channel_sigma g2
  let g3 := rng.next g2
  let u_eff := u_t + noise
  (⟨eng2, x_true, u_eff, g3⟩,
   ⟨h.pi_true ++ [x_true 0], h.y_true ++ [x_true 1],
    h.pi_hat ++ [eng1.x_hat 0], h.y_hat ++ [eng1.x_hat 1],
    h.u ++ [u_t], h.u_eff ++ [u_eff]⟩)

/-- `np.random.seed(seed)` is executed only when `seed is not None`
(`engine.py` lines 128-129); otherwise the ambient generator state `g0`
is used unchanged. -/
def seedResolve (rng : NpRandom) (seed : Option ℕ) (g0 : ℕ) : ℕ :=
  match seed with
  | some s => rng.seedState s
  | none => g0

/-- `simulate_cdpm` (`engine.py` lines 110-196): optionally seed the
generator, start from `x_true = 0`, `u_eff_prev = 0` and a freshly
initialised engine, iterate the loop body `T` times and return the history
(together with the final generator state, which in Python lives in the
global `np.random`). -/
noncomputable def simulate_cdpm (rng : NpRandom) (T : ℕ) (p : Params)
    (seed : Option ℕ) (g0 : ℕ) : History × ℕ :=
  let g := seedResolve rng seed g0
  let res := (simStep rng p)^[T] (⟨initEng 2, fun _ => 0, 0, g⟩, History.empty)
  (res.2, res.1.g)

/-- The default matrices of `simulate_cdpm` used when `A..R` are `None`
(`engine.py` lines 132-141). -/
noncomputable def defaultSys : SysMat 2 2 :=
  { A := !![0.8, 0.1; 0.1, 0.7]
    B := ![0.2, 0.1]
    C := 1
    Q := (0.01 : ℝ) • 1
    R := (0.05 : ℝ) • 1 }

/-- The initial loop state of `simulate_cdpm` for generator state `g`. -/
def initSim (g : ℕ) : SimState × History :=
  (⟨initEng 2, fun _ => 0, 0, g⟩, History.empty)

lemma simulate_cdpm_def (rng : NpRandom) (T : ℕ) (p : Params)
    (seed : Option ℕ) (g0 : ℕ) :
    simulate_cdpm rng T p seed g0 =
      (((simStep rng p)^[T] (initSim (seedResolve rng seed g0))).2,
       ((simStep rng p)^[T] (initSim (seedResolve rng seed g0))).1.g) := rfl

lemma simStep_x_true (rng : NpRandom) (p : Params) (sh : SimState × History) :
    ((simStep rng p) sh).1.x_true
      = p.M.A.mulVec sh.1.x_true + sh.1.u_eff_prev • p.M.B
        + rng.mvnormal2 p.M.Q sh.1.g := rfl

lemma simStep_g (rng : NpRandom) (p : Params) (sh : SimState × History) :
    ((simStep rng p) sh).1.g = rng.next (rng.next (rng.next sh.1.g)) := rfl

lemma simStep_hist_pi (rng : NpRandom) (p : Params) (sh : SimState × History) :
    ((simStep rng p) sh).2.pi_true
      = sh.2.pi_true ++ [((simStep rng p) sh).1.x_true 0] := rfl

lemma simStep_hist_y (rng : NpRandom) (p : Params) (sh : SimState × History) :
    ((simStep rng p) sh).2.y_true
      = sh.2.y_true ++ [((simStep rng p) sh).1.x_true 1] := rfl

lemma simStep_hist_ueff (rng : NpRandom) (p : Params) (sh : SimState × History) :
    ((simStep rng p) sh).2.u_eff
      = sh.2.u_eff ++ [((simStep rng p) sh).1.u_eff_prev] := rfl

/-- After `k` loop iterations the generator has advanced by `3 k` primitive
draws (two multivariate normals and one scalar normal per iteration). -/
lemma iter_g (rng : NpRandom) (p : Params) (g : ℕ) (k : ℕ) :
    ((simStep rng p)^[k] (initSim g)).1.g = rng.next^[3 * k] g := by
  induction k with
  | zero => rfl
  | succ k ih =>
    rw [Function.iterate_succ_apply', show 3 * (k + 1) = 3 * k + 1 + 1 + 1 by ring,
      Function.iterate_succ_apply', Function.iterate_succ_apply',
      Function.iterate_succ_apply', ← ih]
    exact simStep_g rng p _

lemma iter_hist_pi (rng : NpRandom) (p : Params) (g : ℕ) (k : ℕ) :
    ((simStep rng p)^[k] (initSim g)).2.pi_true
      = (List.range k).map
          (fun i => ((simStep rng p)^[i + 1] (initSim g)).1.x_true 0) := by
  induction k with
  | zero => rfl
  | succ k ih =>
    simp only [List.range_succ, List.map_append, List.map_cons, List.map_nil]
    rw [← ih, Function.iterate_succ_apply']
    exact simStep_hist_pi rng p _

lemma iter_hist_y (rng : NpRandom) (p : Params) (g : ℕ) (k : ℕ) :
    ((simStep rng p)^[k] (initSim g)).2.y_true
      = (List.range k).map
          (fun i => ((simStep rng p)^[i + 1] (initSim g)).1.x_true 1) := by
  induction k with
  | zero => rfl
  | succ k ih =>
    simp only [List.range_succ, List.map_append, List.map_cons, List.map_nil]
    rw [← ih, Function.iterate_succ_apply']
    exact simStep_hist_y rng p _

lemma iter_hist_ueff (rng : NpRandom) (p : Params) (g : ℕ) (k : ℕ) :
    ((simStep rng p)^[k] (initSim g)).2.u_eff
      = (List.range k).map
          (fun i => ((simStep rng p)^[i + 1] (initSim g)).1.u_eff_prev) := by
  induction k with
  | zero => rfl
  | succ k ih =>
    simp only [List.range_succ, List.map_append, List.map_cons, List.map_nil]
    rw [← ih, Function.iterate_succ_apply']
    exact simStep_hist_ueff rng p _

lemma getD_map_range (f : ℕ → ℝ) {t k : ℕ} (h : t < k) :
    (((List.range k).map f).getD t 0) = f t := by
  have hl : t < ((List.range k).map f).length := by simpa using h
  rw [List.getD_eq_getElem _ _ hl, List.getElem_map, List.getElem_range]

/-- The true-state vector recorded at index `t` of a history:
`(pi_true[t], y_true[t])`. -/
def histVec (h : History) (t : ℕ) : Fin 2 → ℝ :=
  ![h.pi_true.getD t 0, h.y_true.getD t 0]

/-- For `t < T` the recorded true-state vector is the loop state after
`t + 1` iterations. -/
lemma histVec_iter (rng : NpRandom) (p : Params) (g : ℕ) {t T : ℕ} (h : t < T) :
    histVec ((simStep rng p)^[T] (initSim g)).2 t
      = ((simStep rng p)^[t + 1] (initSim g)).1.x_true := by
  funext i
  fin_cases i
  · show (((simStep rng p)^[T] (initSim g)).2.pi_true).getD t 0 = _
    rw [iter_hist_pi, getD_map_range _ h]
    rfl
  · show (((simStep rng p)^[T] (initSim g)).2.y_true).getD t 0 = _
    rw [iter_hist_y, getD_map_range _ h]
    rfl

lemma ueff_iter (rng : NpRandom) (p : Params) (g : ℕ) {t T : ℕ} (h : t < T) :
    (((simStep rng p)^[T] (initSim g)).2.u_eff).getD t 0
      = ((simStep rng p)^[t + 1] (initSim g)).1.u_eff_prev := by
  rw [iter_hist_ueff, getD_map_range _ h]

/-- A concrete instance of the abstract `np.random` model, used to
instantiate universally quantified theorems. -/
def rngW : NpRandom :=
  ⟨id, Nat.succ, fun _ _ _ => 0, fun _ _ => 0⟩

/-- The default gains and noise levels of `simulate_cdpm`
(`engine.py` lines 117-121) packaged with the default matrices. -/
noncomputable def pW : Params := ⟨defaultSys, 0.6, 0.02, 0.1, 0.02, 0.05⟩

end CDEPM

/-- C1: in `simulate_cdpm` the true-state transition of step `t` uses the
effective control of the previous period: the vector recorded at index 0
is `A·0 + B·0 + w_0` (initial state and initial effective control are
zero), and for every later step the vector recorded at index `t + 1` is
`A·x_true_t + B·u_eff_t + w_{t+1}`, where `x_true_t` and `u_eff_t` are the
values recorded at index `t` and `w_{t+1}` is the process-noise draw of
step `t + 1` (the generator having advanced by three draws per step). -/
theorem simulate_cdpm_actuation_lag (rng : CDEPM.NpRandom) (T : ℕ)
    (p : CDEPM.Params) (seed : Option ℕ) (g0 : ℕ) :
    (0 < T →
      CDEPM.histVec (CDEPM.simulate_cdpm rng T p seed g0).1 0
        = p.M.A.mulVec (fun _ => 0) + (0 : ℝ) • p.M.B
          + rng.mvnormal2 p.M.Q (CDEPM.seedResolve rng seed g0)) ∧
    (∀ t, t + 1 < T →
      CDEPM.histVec (CDEPM.simulate_cdpm rng T p seed g0).1 (t + 1)
        = p.M.A.mulVec (CDEPM.histVec (CDEPM.simulate_cdpm rng T p seed g0).1 t)
          + ((CDEPM.simulate_cdpm rng T p seed g0).1.u_eff.getD t 0) • p.M.B
          + rng.mvnormal2 p.M.Q
              (rng.next^[3 * (t + 1)] (CDEPM.seedResolve rng seed g0))) := by
  rw [CDEPM.simulate_cdpm_def]
  constructor
  · intro hT
    rw [CDEPM.histVec_iter rng p _ hT, Function.iterate_one]
    exact CDEPM.simStep_x_true rng p _
  · intro t ht
    have ht' : t < T := Nat.lt_of_succ_lt ht
    rw [CDEPM.histVec_iter rng p _ ht, CDEPM.histVec_iter rng p _ ht',
      CDEPM.ueff_iter rng p _ ht', ← CDEPM.iter_g rng p _ (t + 1),
      Function.iterate_succ_apply']
    exact CDEPM.simStep_x_true rng p _

/-- Instantiation of `simulate_cdpm_actuation_lag` at the default
parameters, `T = 2`, no seed, and a concrete generator model. -/
theorem simulate_cdpm_actuation_lag_witness :
    0 + 1 < 2 ∧
    CDEPM.histVec (CDEPM.simulate_cdpm CDEPM.rngW 2 CDEPM.pW none 0).1 (0 + 1)
      = CDEPM.pW.M.A.mulVec
          (CDEPM.histVec (CDEPM.simulate_cdpm CDEPM.rngW 2 CDEPM.pW none 0).1 0)
        + ((CDEPM.simulate_cdpm CDEPM.rngW 2 CDEPM.pW none 0).1.u_eff.getD 0 0)
            • CDEPM.pW.M.B
        + CDEPM.rngW.mvnormal2 CDEPM.pW.M.Q
            (CDEPM.rngW.next^[3 * (0 + 1)] (CDEPM.seedResolve CDEPM.rngW none 0)) :=
  ⟨by norm_num,
   (simulate_cdpm_actuation_lag CDEPM.rngW 2 CDEPM.pW none 0).2 0 (by norm_num)⟩

namespace RL

/-- `np.var`: population variance, the mean of the squared deviations from
the mean. -/
noncomputable def listMean (l : List ℝ) : ℝ := l.sum / l.length

noncomputable def listVar (l : List ℝ) : ℝ :=
  ((l.map fun x => (x - listMean l) ^ 2).sum) / l.length

/-- `evaluate_policy` (`rl_tuner.py` lines 8-41): run one `simulate_cdpm`
with the default matrices and the given gains / seed, then compute
`loss = Var(pi_true - pi_target) + 0.1 * Var(u)` (each variance taken as
`0.0` on an empty trace).  Returns `(loss, hist)` plus the final generator
state, which in Python lives in the global `np.random`. -/
noncomputable def evaluate_policy (rng : CDEPM.NpRandom)
    (Kp Ki Kd pi_target channel_sigma : ℝ) (T : ℕ) (seed : Option ℕ)
    (g : ℕ) : ℝ × CDEPM.History × ℕ :=
  let r := CDEPM.simulate_cdpm rng T
    ⟨CDEPM.defaultSys, Kp, Ki, Kd, pi_target, channel_sigma⟩ seed g
  let hist := r.1
  let dev := hist.pi_true.map fun x => x - pi_target
  let var_pi := if 0 < dev.length then listVar dev else 0
  let var_u := if 0 < hist.u.length then listVar hist.u else 0
  (var_pi + 0.1 * var_u, hist, r.2)

/-- The nested `for` loops of `coarse_grid_search` enumerate the Cartesian
product with `Kp` outermost and `Kd` innermost (`rl_tuner.py` lines 60-62). -/
def combos (KpGrid KiGrid KdGrid : List ℝ) : List (ℝ × ℝ × ℝ) :=
  KpGrid.flatMap fun kp => KiGrid.flatMap fun ki =>
    KdGrid.map fun kd => (kp, ki, kd)

/-- The loop body of `coarse_grid_search` (`rl_tuner.py` lines 63-75):
evaluate the configuration and keep it when `loss < best_loss`
(`best_loss` starts at `np.inf`, modelled by `⊤ : EReal`). -/
noncomputable def tuneStep (rng : CDEPM.NpRandom)
    (pi_target channel_sigma : ℝ) (T : ℕ) (seed : Option ℕ)
    (acc : (Option (ℝ × ℝ × ℝ) × EReal × Option CDEPM.History) × ℕ)
    (c : ℝ × ℝ × ℝ) :
    (Option (ℝ × ℝ × ℝ) × EReal × Option CDEPM.History) × ℕ :=
  let r := evaluate_policy rng c.1 c.2.1 c.2.2 pi_target channel_sigma T seed acc.2
  if (r.1 : EReal) < acc.1.2.1 then ((some c, (r.1 : EReal), some r.2.1), r.2.2)
  else (acc.1, r.2.2)

/-- `coarse_grid_search` (`rl_tuner.py` lines 44-77): exhaustive search over
the grid, returning `(best_params, best_loss, best_hist)` and the final
generator state. -/
noncomputable def coarse_grid_search (rng : CDEPM.NpRandom)
    (KpGrid KiGrid KdGrid : List ℝ) (pi_target channel_sigma : ℝ) (T : ℕ)
    (seed : Option ℕ) (g : ℕ) :
    Option (ℝ × ℝ × ℝ) × EReal × Option CDEPM.History × ℕ :=
  let out := (combos KpGrid KiGrid KdGrid).foldl
    (tuneStep rng pi_target channel_sigma T seed) ((none, ⊤, none), g)
  (out.1.1, out.1.2.1, out.1.2.2, out.2)

end RL

/-- C9: for `T = 0`, `simulate_cdpm` returns a history whose six lists are
all empty (the loop body never runs), and `evaluate_policy` returns loss
exactly `0.0` together with that empty history: both variances fall back
to `0.0` on the empty trace and `0 + 0.1 * 0 = 0`. -/
theorem simulate_cdpm_T0_empty (rng : CDEPM.NpRandom) (p : CDEPM.Params)
    (seed : Option ℕ) (g0 : ℕ) (Kp Ki Kd pi_target channel_sigma : ℝ)
    (seed2 : Option ℕ) (g2 : ℕ) :
    (CDEPM.simulate_cdpm rng 0 p seed g0).1.pi_true = [] ∧
    (CDEPM.simulate_cdpm rng 0 p seed g0).1.y_true = [] ∧
    (CDEPM.simulate_cdpm rng 0 p seed g0).1.pi_hat = [] ∧
    (CDEPM.simulate_cdpm rng 0 p seed g0).1.y_hat = [] ∧
    (CDEPM.simulate_cdpm rng 0 p seed g0).1.u = [] ∧
    (CDEPM.simulate_cdpm rng 0 p seed g0).1.u_eff = [] ∧
    (RL.evaluate_policy rng Kp Ki Kd pi_target channel_sigma 0 seed2 g2).1 = 0 ∧
    (RL.evaluate_policy rng Kp Ki Kd pi_target channel_sigma 0 seed2 g2).2.1
      = CDEPM.History.empty := by
  refine ⟨rfl, rfl, rfl, rfl, rfl, rfl, ?_, rfl⟩
  show (if (0:ℕ) < 0 then _ else (0:ℝ)) + 0.1 * (if (0:ℕ) < 0 then _ else (0:ℝ)) = 0
  norm_num

namespace CDEPM

/-- The prediction covariance `P_pred = A P Aᵀ + Q` computed by
`kalman_update` (`engine.py` line 64). -/
noncomputable def predCov {n m : ℕ} (M : SysMat n m)
    (P : Matrix (Fin n) (Fin n) ℝ) : Matrix (Fin n) (Fin n) ℝ :=
  M.A * P * M.Aᵀ + M.Q

/-- The innovation covariance `S = C P_pred Cᵀ + R` (`engine.py` line 67). -/
noncomputable def innovCov {n m : ℕ} (M : SysMat n m)
    (P : Matrix (Fin n) (Fin n) ℝ) : Matrix (Fin m) (Fin m) ℝ :=
  M.C * predCov M P * M.Cᵀ + M.R

/-- The Kalman gain `K = P_pred Cᵀ S⁻¹` (`engine.py` line 68). -/
noncomputable def gainK {n m : ℕ} (M : SysMat n m)
    (P : Matrix (Fin n) (Fin n) ℝ) : Matrix (Fin n) (Fin m) ℝ :=
  predCov M P * M.Cᵀ * (innovCov M P)⁻¹

/-- The covariance stored by `kalman_update` is `(I - K C) P_pred`. -/
lemma kalman_update_P {n m : ℕ} (M : SysMat n m) (st : EngState n)
    (z : Fin m → ℝ) (u : ℝ) :
    (kalman_update M st z u).P = (1 - gainK M st.P * M.C) * predCov M st.P := rfl

lemma posSemidef_add {n : ℕ} {A B : Matrix (Fin n) (Fin n) ℝ}
    (hA : A.PosSemidef) (hB : B.PosSemidef) : (A + B).PosSemidef := by
  refine ⟨hA.1.add hB.1, fun x => ?_⟩
  simp only [Matrix.add_mulVec, Matrix.dotProduct_add]
  exact add_nonneg (hA.2 x) (hB.2 x)

lemma posSemidef_diag_nonneg {n : ℕ} {A : Matrix (Fin n) (Fin n) ℝ}
    (hA : A.PosSemidef) (i : Fin n) : 0 ≤ A i i := by
  have h := hA.2 (Pi.single i 1)
  simpa [Matrix.dotProduct, Matrix.mulVec, Pi.single_apply,
    Finset.sum_ite_eq, Finset.sum_ite_eq'] using h

lemma predCov_posSemidef {n m : ℕ} {M : SysMat n m}
    {P : Matrix (Fin n) (Fin n) ℝ} (hP : P.PosSemidef)
    (hQ : M.Q.PosSemidef) : (predCov M P).PosSemidef := by
  rw [predCov, ← Matrix.conjTranspose_eq_transpose_of_trivial]
  exact posSemidef_add (hP.mul_mul_conjTranspose_same M.A) hQ

lemma innovCov_posSemidef {n m : ℕ} {M : SysMat n m}
    {P : Matrix (Fin n) (Fin n) ℝ} (hP : P.PosSemidef)
    (hQ : M.Q.PosSemidef) (hR : M.R.PosSemidef) :
    (innovCov M P).PosSemidef := by
  rw [innovCov, ← Matrix.conjTranspose_eq_transpose_of_trivial]
  exact posSemidef_add
    ((predCov_posSemidef hP hQ).mul_mul_conjTranspose_same M.C) hR

/-- Joseph-form identity: with the exact optimal gain and invertible `S`,
the covariance `(I - K C) P_pred` computed by `kalman_update` equals
`(I - K C) P_pred (I - K C)ᴴ + K R Kᴴ`, a manifestly positive
semidefinite expression. -/
lemma kalman_joseph {n m : ℕ} (M : SysMat n m)
    {P : Matrix (Fin n) (Fin n) ℝ} (hP : P.PosSemidef)
    (hQ : M.Q.PosSemidef) (hR : M.R.PosSemidef)
    (hS : IsUnit (innovCov M P).det) :
    (1 - gainK M P * M.C) * predCov M P
      = (1 - gainK M P * M.C) * predCov M P * (1 - gainK M P * M.C)ᴴ
        + gainK M P * M.R * (gainK M P)ᴴ := by
  have hPp : (predCov M P)ᴴ = predCov M P := (predCov_posSemidef hP hQ).1
  have hSh : (innovCov M P)ᴴ = innovCov M P := (innovCov_posSemidef hP hQ hR).1
  have hKdef : gainK M P = predCov M P * M.Cᴴ * (innovCov M P)⁻¹ := by
    rw [gainK, Matrix.conjTranspose_eq_transpose_of_trivial]
  have hKS : gainK M P * innovCov M P = predCov M P * M.Cᴴ := by
    rw [hKdef, Matrix.mul_assoc, Matrix.nonsing_inv_mul _ hS, Matrix.mul_one]
  have hKH : (gainK M P)ᴴ = (innovCov M P)⁻¹ * M.C * predCov M P := by
    rw [hKdef]
    simp only [Matrix.conjTranspose_mul, Matrix.conjTranspose_nonsing_inv,
      Matrix.conjTranspose_conjTranspose, hPp, hSh, Matrix.mul_assoc]
  have hR2 : M.R = innovCov M P - M.C * predCov M P * M.Cᴴ := by
    rw [innovCov, ← Matrix.conjTranspose_eq_transpose_of_trivial,
      add_sub_cancel_left]
  have hKSK : gainK M P * innovCov M P * (gainK M P)ᴴ
      = predCov M P * M.Cᴴ * (gainK M P)ᴴ := by rw [hKS]
  have hKRK : gainK M P * M.R * (gainK M P)ᴴ
      = predCov M P * M.Cᴴ * (gainK M P)ᴴ
        - gainK M P * (M.C * predCov M P * M.Cᴴ) * (gainK M P)ᴴ := by
    rw [hR2, Matrix.mul_sub, Matrix.sub_mul, hKSK]
  rw [hKRK]
  simp only [Matrix.conjTranspose_sub, Matrix.conjTranspose_one,
    Matrix.conjTranspose_mul, hPp]
  simp only [Matrix.sub_mul, Matrix.mul_sub, Matrix.one_mul, Matrix.mul_one,
    Matrix.mul_assoc]
  abel

/-- One `kalman_update` call preserves positive semidefiniteness of the
stored covariance, given PSD `Q`, `R` and invertible innovation
covariance. -/
lemma kalman_step_psd {n m : ℕ} (M : SysMat n m) (st : EngState n)
    (z : Fin m → ℝ) (u : ℝ) (hP : st.P.PosSemidef) (hQ : M.Q.PosSemidef)
    (hR : M.R.PosSemidef) (hS : IsUnit (innovCov M st.P).det) :
    (kalman_update M st z u).P.PosSemidef := by
  rw [kalman_update_P, kalman_joseph M hP hQ hR hS]
  exact posSemidef_add
    ((predCov_posSemidef hP hQ).mul_mul_conjTranspose_same _)
    (hR.mul_mul_conjTranspose_same _)

/-- A sequence of `kalman_update` calls with observations and previous
effective controls given by `l`, applied in order. -/
noncomputable def runUpdates {n m : ℕ} (M : SysMat n m) (st : EngState n)
    (l : List ((Fin m → ℝ) × ℝ)) : EngState n :=
  l.foldl (fun s zu => kalman_update M s zu.1 zu.2) st

lemma runUpdates_psd {n m : ℕ} (M : SysMat n m)
    (l : List ((Fin m → ℝ) × ℝ)) (st : EngState n) (hP : st.P.PosSemidef)
    (hQ : M.Q.PosSemidef) (hR : M.R.PosSemidef)
    (hS : ∀ k, k < l.length →
      IsUnit (innovCov M (runUpdates M st (l.take k)).P).det) :
    (runUpdates M st l).P.PosSemidef := by
  induction l generalizing st with
  | nil => exact hP
  | cons zu tl ih =>
    have h0 : IsUnit (innovCov M st.P).det := hS 0 (Nat.succ_pos _)
    refine ih (kalman_update M st zu.1 zu.2)
      (kalman_step_psd M st zu.1 zu.2 hP hQ hR h0) ?_
    intro k hk
    exact hS (k + 1) (Nat.succ_lt_succ hk)

end CDEPM

/-- C3: after every sequence of `kalman_update` calls, given symmetric PSD
initial covariance `P`, PSD `Q` and `R`, and invertible innovation
covariance `S` at each step, the stored covariance remains a symmetric
matrix with non-negative diagonal entries (in exact arithmetic it is in
fact positive semidefinite, by the Joseph-form identity). -/
theorem kalman_update_covariance_symm_nonneg {n m : ℕ} (M : CDEPM.SysMat n m)
    (st : CDEPM.EngState n) (l : List ((Fin m → ℝ) × ℝ))
    (hP : st.P.PosSemidef) (hQ : M.Q.PosSemidef) (hR : M.R.PosSemidef)
    (hS : ∀ k, k < l.length →
      IsUnit (CDEPM.innovCov M (CDEPM.runUpdates M st (l.take k)).P).det) :
    (CDEPM.runUpdates M st l).P.IsSymm ∧
    ∀ i, 0 ≤ (CDEPM.runUpdates M st l).P i i := by
  have hpsd := CDEPM.runUpdates_psd M l st hP hQ hR hS
  refine ⟨?_, fun i => CDEPM.posSemidef_diag_nonneg hpsd i⟩
  rw [Matrix.IsSymm, ← Matrix.conjTranspose_eq_transpose_of_trivial]
  exact hpsd.1

namespace FFT

/-- The discrete Fourier transform value computed by `np.fft.rfft` at bin
`k`: `X_k = Σ_j x_j · exp(-2πi·j·k/n)`. -/
noncomputable def rfftVal (x : List ℝ) (k : ℕ) : ℂ :=
  ∑ j ∈ Finset.range x.length,
    (x.getD j 0 : ℂ) * Complex.exp (-(2 * Real.pi * Complex.I * j * k) / x.length)

/-- `compute_fft_spectrum` (`fft_cycle.py` lines 6-35): empty input returns
two empty arrays; otherwise the series is mean-centered, the one-sided
spectrum `|rfft(x)| / n` is taken over the `n/2 + 1` bins, and the
frequencies are `np.fft.rfftfreq n dt = k / (n·dt)` for `k = 0 .. n/2`. -/
noncomputable def compute_fft_spectrum (series : List ℝ) (dt : ℝ) :
    List ℝ × List ℝ :=
  if series.length = 0 then ([], [])
  else
    let n := series.length
    let x := series.map fun v => v - RL.listMean series
    let freqs := (List.range (n / 2 + 1)).map fun (k : ℕ) => (k : ℝ) / (n * dt)
    let amps := (List.range (n / 2 + 1)).map fun k => Complex.abs (rfftVal x k) / n
    (freqs, amps)

end FFT

/-- C6: for a nonempty real series and `dt > 0`, `compute_fft_spectrum`
returns two arrays of equal length `⌊n/2⌋ + 1`, with `freqs[k] = k/(n·dt)`
up to Nyquist and `amps[k]` the magnitude of the DFT of the mean-centered
series divided by `n`; the empty series yields two empty arrays and no
error. -/
theorem compute_fft_spectrum_spec (series : List ℝ) (dt : ℝ)
    (hn : 0 < series.length) (hdt : 0 < dt) :
    (FFT.compute_fft_spectrum series dt).1.length = series.length / 2 + 1 ∧
    (FFT.compute_fft_spectrum series dt).2.length = series.length / 2 + 1 ∧
    (∀ k, k < series.length / 2 + 1 →
      (FFT.compute_fft_spectrum series dt).1.getD k 0
        = k / (series.length * dt) ∧
      (FFT.compute_fft_spectrum series dt).2.getD k 0
        = Complex.abs
            (FFT.rfftVal (series.map fun v => v - RL.listMean series) k)
          / series.length) ∧
    FFT.compute_fft_spectrum [] dt = ([], []) := by
  have hne : series.length ≠ 0 := Nat.pos_iff_ne_zero.mp hn
  rw [FFT.compute_fft_spectrum, if_neg hne]
  refine ⟨by simp, by simp, fun k hk => ⟨?_, ?_⟩, rfl⟩
  · exact CDEPM.getD_map_range _ hk
  · exact CDEPM.getD_map_range _ hk

/-- Instantiation of `compute_fft_spectrum_spec` at the series `[1, 2]`
with `dt = 1`. -/
theorem compute_fft_spectrum_spec_witness :
    0 < ([(1 : ℝ), 2]).length ∧ (0 : ℝ) < 1 ∧
    (FFT.compute_fft_spectrum [(1 : ℝ), 2] 1).1.length
      = ([(1 : ℝ), 2]).length / 2 + 1 :=
  ⟨by norm_num, by norm_num,
   (compute_fft_spectrum_spec [(1 : ℝ), 2] 1 (by norm_num) (by norm_num)).1⟩

namespace CDEPM

/-- A concrete 1×1 system (all matrices the identity) used to instantiate
the covariance theorem. -/
def M1 : SysMat 1 1 := ⟨1, fun _ => 1, 1, 1, 1⟩

/-- A concrete engine state with covariance `P = I`. -/
def st1 : EngState 1 := ⟨fun _ => 0, 1, 0, 0, 0⟩

/-- A single Kalman update with observation `0` and previous control `0`. -/
def l1 : List ((Fin 1 → ℝ) × ℝ) := [(fun _ => 0, 0)]

end CDEPM

/-- Instantiation of `kalman_update_covariance_symm_nonneg` on a concrete
1×1 system with one update: all PSD hypotheses hold for the identity and
the innovation covariance is the unit `3`. -/
theorem kalman_update_covariance_symm_nonneg_witness :
    (CDEPM.st1.P).PosSemidef ∧
    (CDEPM.runUpdates CDEPM.M1 CDEPM.st1 CDEPM.l1).P.IsSymm ∧
    0 ≤ (CDEPM.runUpdates CDEPM.M1 CDEPM.st1 CDEPM.l1).P 0 0 := by
  have h1 : (CDEPM.st1.P).PosSemidef := Matrix.PosSemidef.one
  have hQ : (CDEPM.M1.Q).PosSemidef := Matrix.PosSemidef.one
  have hR : (CDEPM.M1.R).PosSemidef := Matrix.PosSemidef.one
  have hS : ∀ k, k < CDEPM.l1.length →
      IsUnit (CDEPM.innovCov CDEPM.M1
        (CDEPM.runUpdates CDEPM.M1 CDEPM.st1 (CDEPM.l1.take k)).P).det := by
    intro k hk
    have hk0 : k = 0 := by
      simpa [CDEPM.l1, Nat.lt_one_iff] using hk
    subst hk0
    rw [isUnit_iff_ne_zero]
    simp only [CDEPM.runUpdates, CDEPM.l1, List.take_zero, List.foldl_nil,
      CDEPM.innovCov, CDEPM.predCov, CDEPM.M1, CDEPM.st1, Matrix.one_mul,
      Matrix.mul_one, Matrix.transpose_one, Matrix.det_fin_one,
      Matrix.add_apply, Matrix.one_apply_eq]
    norm_num
  have hmain := kalman_update_covariance_symm_nonneg CDEPM.M1 CDEPM.st1
    CDEPM.l1 h1 hQ hR hS
  exact ⟨h1, hmain.1, hmain.2 0⟩

namespace MM1

open scoped ENNReal NNReal

/-- The candidate time to the next arrival (`queues.py` line 31):
`np.random.exponential(1.0 / lmbda)` when `lmbda > 0`, `np.inf` otherwise.
`np.random.exponential scale` is `scale` times a standard exponential
draw `d ≥ 0`, so the candidate is `d / lmbda`. -/
noncomputable def arrival_candidate (lmbda : ℝ) (d : ℝ≥0) : ℝ≥0∞ :=
  if 0 < lmbda then (d : ℝ≥0∞) / ENNReal.ofReal lmbda else ⊤

/-- Number of generator draws consumed by the arrival candidate: the
exponential is sampled only when `lmbda > 0`. -/
noncomputable def arrival_consumes (lmbda : ℝ) : ℕ := if 0 < lmbda then 1 else 0

/-- The candidate time to the next service completion (`queues.py`
line 32): sampled only when `mu > 0` and the queue is nonempty, `np.inf`
otherwise. -/
noncomputable def service_candidate (mu : ℝ) (q : ℤ) (d : ℝ≥0) : ℝ≥0∞ :=
  if 0 < mu ∧ 0 < q then (d : ℝ≥0∞) / ENNReal.ofReal mu else ⊤

/-- Number of generator draws consumed by the service candidate: the
exponential is sampled only when `mu > 0` and the queue is nonempty. -/
noncomputable def service_consumes (mu : ℝ) (q : ℤ) : ℕ := if 0 < mu ∧ 0 < q then 1 else 0

/-- Loop state of `simulate_mm1_queue`: clock, queue length, position in
the stream of standard-exponential draws, and the recorded series. -/
structure QState where
  t : ℝ≥0∞
  q : ℤ
  k : ℕ
  times : List ℝ≥0∞
  qs : List ℤ

/-- The `while t < T` loop of `simulate_mm1_queue` (`queues.py` lines
29-45), run on an explicit draw stream with explicit fuel: `none` means
the fuel was exhausted before the loop exited.  Each iteration draws the
two candidates, advances the clock by the smaller one, increments the
queue on an arrival and decrements it (only when positive) on a service
completion, then records `(t, q)`. -/
noncomputable def mm1_go (lmbda mu T : ℝ) (stream : ℕ → ℝ≥0) :
    ℕ → QState → Option (List ℝ≥0∞ × List ℤ)
  | 0, st => if st.t < ENNReal.ofReal T then none else some (st.times, st.qs)
  | fuel + 1, st =>
    if st.t < ENNReal.ofReal T then
      let tA := arrival_candidate lmbda (stream st.k)
      let kA := st.k + arrival_consumes lmbda
      let tS := service_candidate mu st.q (stream kA)
      let k2 := kA + service_consumes mu st.q
      if tA < tS then
        mm1_go lmbda mu T stream fuel
          ⟨st.t + tA, st.q + 1, k2, st.times ++ [st.t + tA], st.qs ++ [st.q + 1]⟩
      else
        let q2 := if 0 < st.q then st.q - 1 else st.q
        mm1_go lmbda mu T stream fuel
          ⟨st.t + tS, q2, k2, st.times ++ [st.t + tS], st.qs ++ [q2]⟩
    else some (st.times, st.qs)

/-- `simulate_mm1_queue` (`queues.py` lines 6-47) from the initial state
`t = 0`, `q = 0`, `times = [0.0]`, `qs = [0]`.  The Python function
performs no input validation and contains no `raise` statement, so there
is no error outcome; `none` only signals insufficient fuel. -/
noncomputable def mm1_run (fuel : ℕ) (lmbda mu T : ℝ) (stream : ℕ → ℝ≥0) :
    Option (List ℝ≥0∞ × List ℤ) :=
  mm1_go lmbda mu T stream fuel ⟨0, 0, 0, [0], [0]⟩

/-- The simulation terminates on the given inputs and draw stream. -/
def mm1_terminates (lmbda mu T : ℝ) (stream : ℕ → ℝ≥0) : Prop :=
  ∃ fuel, (mm1_run fuel lmbda mu T stream).isSome

end MM1

/-- C8 counterexample: `simulate_mm1_queue` raises nothing on a negative
arrival rate, negative service rate and non-positive horizon: with
`lmbda = mu = -1` and `T = 0` it returns `([0.0], [0])` normally (the
loop condition `t < T` fails at once), contradicting the claim that such
inputs fail with `InputError` — no such exception exists anywhere in
`queues.py`. -/
theorem simulate_mm1_queue_no_input_error :
    MM1.mm1_run 1 (-1) (-1) 0 (fun _ => 0) = some ([0], [0]) := by
  simp [MM1.mm1_run, MM1.mm1_go]

/-- C8 amended: `simulate_mm1_queue` performs no input validation and has
no error path: a non-positive horizon makes the loop exit immediately
with `([0.0], [0])`, a non-positive arrival rate is handled by an
infinite arrival candidate (no draw consumed), and a non-positive service
rate by an infinite service candidate (no draw consumed). -/
theorem simulate_mm1_queue_no_validation (lmbda mu T : ℝ)
    (stream : ℕ → NNReal) (fuel : ℕ) :
    (T ≤ 0 → MM1.mm1_run fuel lmbda mu T stream = some ([0], [0])) ∧
    (lmbda ≤ 0 → ∀ d, MM1.arrival_candidate lmbda d = ⊤ ∧
      MM1.arrival_consumes lmbda = 0) ∧
    (mu ≤ 0 → ∀ q d, MM1.service_candidate mu q d = ⊤ ∧
      MM1.service_consumes mu q = 0) := by
  refine ⟨fun hT => ?_, fun hl d => ?_, fun hm q d => ?_⟩
  · have h0 : ENNReal.ofReal T = 0 := ENNReal.ofReal_eq_zero.2 hT
    cases fuel <;> simp [MM1.mm1_run, MM1.mm1_go, h0]
  · simp [MM1.arrival_candidate, MM1.arrival_consumes, not_lt.2 hl]
  · simp [MM1.service_candidate, MM1.service_consumes, not_lt.2 hm]

/-- Instantiation of `simulate_mm1_queue_no_validation` at
`lmbda = mu = -1`, `T = 0`. -/
theorem simulate_mm1_queue_no_validation_witness :
    (0 : ℝ) ≤ 0 ∧ MM1.mm1_run 3 (-1) (-1) 0 (fun _ => 0) = some ([0], [0]) :=
  ⟨le_refl 0,
   (simulate_mm1_queue_no_validation (-1) (-1) 0 (fun _ => 0) 3).1 (le_refl 0)⟩

namespace MM1

open scoped ENNReal NNReal

/-- Loop invariant of `simulate_mm1_queue`: all recorded queue lengths are
non-negative, the recorded times are non-decreasing, both series start at
`0`, the live queue length is non-negative, and every recorded time is at
most the current clock. -/
def Inv (st : QState) : Prop :=
  (∀ x ∈ st.qs, 0 ≤ x) ∧ st.times.Sorted (· ≤ ·) ∧
  st.times.head? = some 0 ∧ st.qs.head? = some 0 ∧ 0 ≤ st.q ∧
  ∀ x ∈ st.times, x ≤ st.t

/-- Appending the new event `(t + dt, q2)` with `q2 ≥ 0` preserves the
loop invariant. -/
lemma inv_append (st : QState) (hInv : Inv st) (dt : ℝ≥0∞) (q2 : ℤ)
    (h2 : 0 ≤ q2) (k2 : ℕ) :
    Inv ⟨st.t + dt, q2, k2, st.times ++ [st.t + dt], st.qs ++ [q2]⟩ := by
  obtain ⟨hq, hsort, hth, hqh, hq0, hle⟩ := hInv
  refine ⟨?_, ?_, ?_, ?_, h2, ?_⟩
  · intro x hx
    rcases List.mem_append.1 hx with hx | hx
    · exact hq x hx
    · rw [List.mem_singleton.1 hx]; exact h2
  · refine List.pairwise_append.2 ⟨hsort, List.pairwise_singleton _ _, ?_⟩
    intro x hx y hy
    rw [List.mem_singleton.1 hy]
    exact le_trans (hle x hx) le_self_add
  · rcases ht : st.times with _ | ⟨a, tl⟩
    · rw [ht] at hth; exact absurd hth (by simp)
    · rw [ht] at hth
      simpa using hth
  · rcases hqs : st.qs with _ | ⟨a, tl⟩
    · rw [hqs] at hqh; exact absurd hqh (by simp)
    · rw [hqs] at hqh
      simpa using hqh
  · intro x hx
    rcases List.mem_append.1 hx with hx | hx
    · exact le_trans (hle x hx) le_self_add
    · rw [List.mem_singleton.1 hx]

/-- The loop of `simulate_mm1_queue` carries `Inv` to its output. -/
lemma mm1_go_inv (lmbda mu T : ℝ) (stream : ℕ → ℝ≥0) :
    ∀ (fuel : ℕ) (st : QState) (times : List ℝ≥0∞) (qs : List ℤ),
      Inv st → mm1_go lmbda mu T stream fuel st = some (times, qs) →
      (∀ x ∈ qs, 0 ≤ x) ∧ times.Sorted (· ≤ ·) ∧
      times.head? = some 0 ∧ qs.head? = some 0 := by
  intro fuel
  induction fuel with
  | zero =>
    intro st times qs hInv h
    rw [mm1_go] at h
    by_cases hc : st.t < ENNReal.ofReal T
    · rw [if_pos hc] at h; exact absurd h (by simp)
    · rw [if_neg hc] at h
      obtain ⟨h1, h2⟩ := Prod.mk.injEq .. ▸ Option.some.injEq .. ▸ h
      have h1 : times = st.times := by
        simpa using congrArg (fun o => o.map Prod.fst) h.symm
      have h2 : qs = st.qs := by
        simpa using congrArg (fun o => o.map Prod.snd) h.symm
      subst h1; subst h2
      exact ⟨hInv.1, hInv.2.1, hInv.2.2.1, hInv.2.2.2.1⟩
  | succ fuel ih =>
    intro st times qs hInv h
    rw [mm1_go] at h
    by_cases hc : st.t < ENNReal.ofReal T
    · rw [if_pos hc] at h
      by_cases hb : arrival_candidate lmbda (stream st.k)
          < service_candidate mu st.q (stream (st.k + arrival_consumes lmbda))
      · rw [if_pos hb] at h
        exact ih _ _ _
          (inv_append st hInv _ _ (by have := hInv.2.2.2.2.1; omega) _) h
      · rw [if_neg hb] at h
        refine ih _ _ _ (inv_append st hInv _ _ ?_ _) h
        by_cases hq : 0 < st.q
        · rw [if_pos hq]; omega
        · rw [if_neg hq]; exact hInv.2.2.2.2.1
    · rw [if_neg hc] at h
      have h1 : times = st.times := by
        simpa using congrArg (fun o => o.map Prod.fst) h.symm
      have h2 : qs = st.qs := by
        simpa using congrArg (fun o => o.map Prod.snd) h.symm
      subst h1; subst h2
      exact ⟨hInv.1, hInv.2.1, hInv.2.2.1, hInv.2.2.2.1⟩

/-- The initial state of `mm1_run` satisfies the loop invariant. -/
lemma inv_init : Inv ⟨0, 0, 0, [0], [0]⟩ := by
  refine ⟨?_, ?_, rfl, rfl, le_refl 0, ?_⟩
  · intro x hx; rw [List.mem_singleton.1 hx]
  · exact List.pairwise_singleton _ _
  · intro x hx; rw [List.mem_singleton.1 hx]

end MM1

/-- C7: whenever `simulate_mm1_queue` returns, every recorded queue length
is non-negative, the recorded times are non-decreasing starting at `0`,
the recorded lengths start at `0`, and a service-completion candidate is
never drawn while the queue is empty: at `q = 0` the candidate is `np.inf`
and no exponential draw is consumed. -/
theorem simulate_mm1_queue_invariants (lmbda mu T : ℝ) (stream : ℕ → NNReal)
    (fuel : ℕ) (times : List ENNReal) (qs : List ℤ)
    (h : MM1.mm1_run fuel lmbda mu T stream = some (times, qs)) :
    (∀ x ∈ qs, 0 ≤ x) ∧ times.Sorted (· ≤ ·) ∧
    times.head? = some 0 ∧ qs.head? = some 0 ∧
    (∀ mu2 d, MM1.service_candidate mu2 0 d = ⊤ ∧
      MM1.service_consumes mu2 0 = 0) := by
  have hmain := MM1.mm1_go_inv lmbda mu T stream fuel _ times qs MM1.inv_init h
  refine ⟨hmain.1, hmain.2.1, hmain.2.2.1, hmain.2.2.2, fun mu2 d => ?_⟩
  constructor
  · rw [MM1.service_candidate, if_neg]
    rintro ⟨-, h0⟩
    exact absurd h0 (lt_irrefl 0)
  · rw [MM1.service_consumes, if_neg]
    rintro ⟨-, h0⟩
    exact absurd h0 (lt_irrefl 0)

/-- Instantiation of `simulate_mm1_queue_invariants` on the terminating
run `λ = 0`, `μ = 1`, `T = 1`: the returned series are `[0, ∞]`, `[0, 0]`. -/
theorem simulate_mm1_queue_invariants_witness :
    MM1.mm1_run 1 0 1 1 (fun _ => 0) = some ([0, ⊤], [0, 0]) ∧
    List.Sorted (· ≤ ·) [(0 : ENNReal), ⊤] := by
  have h : MM1.mm1_run 1 0 1 1 (fun _ => 0) = some ([0, ⊤], [0, 0]) := by
    norm_num [MM1.mm1_run, MM1.mm1_go, MM1.arrival_candidate,
      MM1.arrival_consumes, MM1.service_candidate, MM1.service_consumes,
      ENNReal.ofReal_one]
  exact ⟨h, (simulate_mm1_queue_invariants 0 1 1 (fun _ => 0) 1 _ _ h).2.1⟩

namespace MM1

open scoped ENNReal NNReal

/-- Unfolding of one loop iteration when the loop condition holds. -/
lemma mm1_go_succ_eq (lmbda mu T : ℝ) (stream : ℕ → ℝ≥0) (fuel : ℕ)
    (st : QState) (hc : st.t < ENNReal.ofReal T) :
    mm1_go lmbda mu T stream (fuel + 1) st =
      if arrival_candidate lmbda (stream st.k)
          < service_candidate mu st.q
              (stream (st.k + arrival_consumes lmbda)) then
        mm1_go lmbda mu T stream fuel
          ⟨st.t + arrival_candidate lmbda (stream st.k), st.q + 1,
           st.k + arrival_consumes lmbda + service_consumes mu st.q,
           st.times ++ [st.t + arrival_candidate lmbda (stream st.k)],
           st.qs ++ [st.q + 1]⟩
      else
        mm1_go lmbda mu T stream fuel
          ⟨st.t + service_candidate mu st.q
              (stream (st.k + arrival_consumes lmbda)),
           if 0 < st.q then st.q - 1 else st.q,
           st.k + arrival_consumes lmbda + service_consumes mu st.q,
           st.times ++ [st.t + service_candidate mu st.q
              (stream (st.k + arrival_consumes lmbda))],
           st.qs ++ [if 0 < st.q then st.q - 1 else st.q]⟩ := by
  rw [mm1_go, if_pos hc]

/-- With the all-zero draw stream and `λ = μ = T = 1` the clock never
advances, so the loop never exits, whatever the fuel. -/
lemma mm1_zero_stream_go (fuel : ℕ) :
    ∀ st : QState, st.t = 0 →
      mm1_go 1 1 1 (fun _ => 0) fuel st = none := by
  induction fuel with
  | zero =>
    intro st ht
    rw [mm1_go, if_pos]
    rw [ht, ENNReal.ofReal_one]
    exact zero_lt_one
  | succ fuel ih =>
    intro st ht
    have hc : st.t < ENNReal.ofReal 1 := by
      rw [ht, ENNReal.ofReal_one]; exact zero_lt_one
    rw [mm1_go_succ_eq 1 1 1 (fun _ => 0) fuel st hc]
    have hA : arrival_candidate 1 ((fun _ => (0 : ℝ≥0)) st.k) = 0 := by
      simp [arrival_candidate]
    by_cases hq : 0 < st.q
    · have hS : service_candidate 1 st.q
          ((fun _ => (0 : ℝ≥0)) (st.k + arrival_consumes 1)) = 0 := by
        simp [service_candidate, hq]
      rw [hA, hS, if_neg (lt_irrefl 0)]
      exact ih _ (by simp [ht])
    · have hS : service_candidate 1 st.q
          ((fun _ => (0 : ℝ≥0)) (st.k + arrival_consumes 1)) = ⊤ := by
        simp [service_candidate, hq]
      rw [hA, hS, if_pos (by simp)]
      exact ih _ (by simp [ht])

/-- Dividing a larger draw by a smaller positive rate gives a larger
candidate: `δ / max ≤ d / a` when `δ ≤ d` and `a ≤ max`. -/
lemma div_bound {a b : ℝ} (d δ : ℝ≥0) (hd : δ ≤ d) (hab : a ≤ b) :
    (δ : ℝ≥0∞) / ENNReal.ofReal b ≤ (d : ℝ≥0∞) / ENNReal.ofReal a :=
  le_trans (ENNReal.div_le_div_left (ENNReal.ofReal_le_ofReal hab) _)
    (ENNReal.div_le_div_right (ENNReal.coe_le_coe.2 hd) _)

/-- When every standard-exponential draw is at least `δ > 0`, each loop
iteration advances the clock by at least `c = δ / max(λ, μ)`, so fuel
`⌈T/c⌉` suffices: if `ofReal T ≤ t + fuel • c` the loop exits within
`fuel` iterations. -/
lemma mm1_go_isSome (lmbda mu T : ℝ) (stream : ℕ → ℝ≥0) (δ : ℝ≥0)
    (hb : ∀ n, δ ≤ stream n) :
    ∀ (fuel : ℕ) (st : QState),
      ENNReal.ofReal T
        ≤ st.t + fuel • ((δ : ℝ≥0∞) / ENNReal.ofReal (max lmbda mu)) →
      (mm1_go lmbda mu T stream fuel st).isSome := by
  intro fuel
  induction fuel with
  | zero =>
    intro st h
    rw [zero_smul, add_zero] at h
    rw [mm1_go, if_neg (not_lt.2 h)]
    rfl
  | succ fuel ih =>
    intro st h
    by_cases hc : st.t < ENNReal.ofReal T
    · rw [mm1_go_succ_eq lmbda mu T stream fuel st hc]
      by_cases hArr : arrival_candidate lmbda (stream st.k)
          < service_candidate mu st.q
              (stream (st.k + arrival_consumes lmbda))
      · rw [if_pos hArr]
        refine ih _ ?_
        have hl : 0 < lmbda := by
          by_contra hl
          have htop : arrival_candidate lmbda (stream st.k) = ⊤ := by
            rw [arrival_candidate, if_neg hl]
          rw [htop] at hArr
          exact not_top_lt hArr
        have htA : (δ : ℝ≥0∞) / ENNReal.ofReal (max lmbda mu)
            ≤ arrival_candidate lmbda (stream st.k) := by
          rw [arrival_candidate, if_pos hl]
          exact div_bound _ _ (hb st.k) (le_max_left _ _)
        calc ENNReal.ofReal T
            ≤ st.t + (fuel + 1) • ((δ : ℝ≥0∞) / ENNReal.ofReal (max lmbda mu)) := h
          _ = st.t + (δ : ℝ≥0∞) / ENNReal.ofReal (max lmbda mu)
              + fuel • ((δ : ℝ≥0∞) / ENNReal.ofReal (max lmbda mu)) := by
              rw [succ_nsmul]; ring
          _ ≤ st.t + arrival_candidate lmbda (stream st.k)
              + fuel • ((δ : ℝ≥0∞) / ENNReal.ofReal (max lmbda mu)) :=
              add_le_add_right (add_le_add_left htA _) _
      · rw [if_neg hArr]
        refine ih _ ?_
        by_cases hSvc : 0 < mu ∧ 0 < st.q
        · have htS : (δ : ℝ≥0∞) / ENNReal.ofReal (max lmbda mu)
              ≤ service_candidate mu st.q
                  (stream (st.k + arrival_consumes lmbda)) := by
            rw [service_candidate, if_pos hSvc]
            exact div_bound _ _ (hb _) (le_max_right _ _)
          calc ENNReal.ofReal T
              ≤ st.t + (fuel + 1) • ((δ : ℝ≥0∞) / ENNReal.ofReal (max lmbda mu)) := h
            _ = st.t + (δ : ℝ≥0∞) / ENNReal.ofReal (max lmbda mu)
                + fuel • ((δ : ℝ≥0∞) / ENNReal.ofReal (max lmbda mu)) := by
                rw [succ_nsmul]; ring
            _ ≤ st.t + service_candidate mu st.q
                  (stream (st.k + arrival_consumes lmbda))
                + fuel • ((δ : ℝ≥0∞) / ENNReal.ofReal (max lmbda mu)) :=
                add_le_add_right (add_le_add_left htS _) _
        · have htS : service_candidate mu st.q
              (stream (st.k + arrival_consumes lmbda)) = ⊤ := by
            rw [service_candidate, if_neg hSvc]
          show ENNReal.ofReal T ≤ _ + _ + _
          rw [htS, add_top, top_add]
          exact le_top
    · rw [mm1_go, if_neg hc]
      rfl

end MM1

/-- C10 counterexample: termination of `simulate_mm1_queue` is not
unconditional in the inputs: on the draw stream that returns `0.0` for
every exponential sample (a value `np.random.exponential` can produce),
with `λ = μ = T = 1` the clock never advances and the `while t < T` loop
never exits. -/
theorem mm1_zero_stream_diverges : ¬ MM1.mm1_terminates 1 1 1 (fun _ => 0) := by
  rintro ⟨fuel, hf⟩
  rw [MM1.mm1_run, MM1.mm1_zero_stream_go fuel _ rfl] at hf
  exact Bool.noConfusion hf

/-- C10 amended: `simulate_mm1_queue` terminates whenever the
standard-exponential draws are bounded below by some `δ > 0` (each
iteration then advances the clock by at least `δ / max(λ, μ)`), and for
`λ ≤ 0` it terminates unconditionally: with the queue empty both
candidates are infinite, the service branch is taken, the clock jumps to
`∞`, and for `T > 0` the run returns `times = [0, ∞]`, `lengths = [0, 0]`. -/
theorem mm1_terminates_of_bounded_draws (lmbda mu T : ℝ)
    (stream : ℕ → NNReal) (δ : NNReal) :
    (0 < δ → (∀ n, δ ≤ stream n) → MM1.mm1_terminates lmbda mu T stream) ∧
    (lmbda ≤ 0 → MM1.mm1_terminates lmbda mu T stream ∧
      (0 < T → MM1.mm1_run 1 lmbda mu T stream = some ([0, ⊤], [0, 0]))) := by
  constructor
  · intro hδ hb
    by_cases hc0 : (δ : ℝ≥0∞) / ENNReal.ofReal (max lmbda mu) = ⊤
    · refine ⟨1, MM1.mm1_go_isSome lmbda mu T stream δ hb 1 _ ?_⟩
      rw [one_smul, hc0, add_top]
      exact le_top
    · have hcpos : 0 < (δ : ℝ≥0∞) / ENNReal.ofReal (max lmbda mu) :=
        ENNReal.div_pos (ENNReal.coe_ne_zero.2 hδ.ne') ENNReal.ofReal_ne_top
      have hdiv : ENNReal.ofReal T
          / ((δ : ℝ≥0∞) / ENNReal.ofReal (max lmbda mu)) ≠ ⊤ :=
        (ENNReal.div_lt_top ENNReal.ofReal_ne_top hcpos.ne').ne
      obtain ⟨n, hn⟩ := ENNReal.exists_nat_gt hdiv
      refine ⟨n, MM1.mm1_go_isSome lmbda mu T stream δ hb n _ ?_⟩
      have : ENNReal.ofReal T
          ≤ n * ((δ : ℝ≥0∞) / ENNReal.ofReal (max lmbda mu)) := by
        calc ENNReal.ofReal T
            = ENNReal.ofReal T / ((δ : ℝ≥0∞) / ENNReal.ofReal (max lmbda mu))
              * ((δ : ℝ≥0∞) / ENNReal.ofReal (max lmbda mu)) :=
              (ENNReal.div_mul_cancel hcpos.ne' hc0).symm
          _ ≤ n * ((δ : ℝ≥0∞) / ENNReal.ofReal (max lmbda mu)) :=
              mul_le_mul_right' hn.le _
      calc ENNReal.ofReal T
          ≤ n * ((δ : ℝ≥0∞) / ENNReal.ofReal (max lmbda mu)) := this
        _ = (0 : ℝ≥0∞) + n • ((δ : ℝ≥0∞) / ENNReal.ofReal (max lmbda mu)) := by
            rw [zero_add, nsmul_eq_mul]
  · intro hl
    have hrun : 0 < T → MM1.mm1_run 1 lmbda mu T stream = some ([0, ⊤], [0, 0]) := by
      intro hT
      have hc : (0 : ℝ≥0∞) < ENNReal.ofReal T := ENNReal.ofReal_pos.2 hT
      have hA : MM1.arrival_candidate lmbda (stream 0) = ⊤ := by
        rw [MM1.arrival_candidate, if_neg (not_lt.2 hl)]
      rw [MM1.mm1_run, MM1.mm1_go_succ_eq lmbda mu T stream 0 _ hc, hA]
      rw [if_neg (by
        rw [MM1.service_candidate, if_neg (by rintro ⟨-, h0⟩; exact absurd h0 (lt_irrefl 0))]
        exact lt_irrefl ⊤)]
      rw [MM1.mm1_go]
      rw [if_neg (by rw [MM1.service_candidate,
        if_neg (by rintro ⟨-, h0⟩; exact absurd h0 (lt_irrefl 0))]; simp)]
      rw [MM1.service_candidate,
        if_neg (by rintro ⟨-, h0⟩; exact absurd h0 (lt_irrefl 0))]
      simp
    constructor
    · by_cases hT : 0 < T
      · exact ⟨1, by rw [hrun hT]; rfl⟩
      · refine ⟨1, ?_⟩
        rw [MM1.mm1_run, MM1.mm1_go, if_neg (by
          rw [ENNReal.ofReal_eq_zero.2 (not_lt.1 hT)]
          exact lt_irrefl 0)]
        rfl
    · exact hrun

/-- Instantiation of `mm1_terminates_of_bounded_draws` at `λ = -1`:
the run with `μ = 1`, `T = 1` terminates and returns `([0, ∞], [0, 0])`. -/
theorem mm1_terminates_of_bounded_draws_witness :
    (-1 : ℝ) ≤ 0 ∧ (0 : ℝ) < 1 ∧
    MM1.mm1_run 1 (-1) 1 1 (fun _ => 0) = some ([0, ⊤], [0, 0]) :=
  ⟨by norm_num, by norm_num,
   ((mm1_terminates_of_bounded_draws (-1) 1 1 (fun _ => 0) 1).2
     (by norm_num)).2 (by norm_num)⟩

namespace Raw

/-- The `ConfigError` named by the specification's error taxonomy; the
implementation defines no such exception anywhere. -/
inductive ConfigError where
  | nonConformable

/-- `CDEPMPolicyEngine` over dynamically shaped numpy arrays, modelled as
lists of rows: exactly what `__init__` stores. -/
structure RawEngine where
  A : List (List ℝ)
  B : List (List ℝ)
  C : List (List ℝ)
  Q : List (List ℝ)
  R : List (List ℝ)
  x_hat : List ℝ
  P : List (List ℝ)
  Kp : ℝ
  Ki : ℝ
  Kd : ℝ
  pi_target : ℝ
  channel_sigma : ℝ
  u_prev : ℝ
  e_prev : ℝ
  e_int : ℝ

/-- `np.eye n * c`. -/
def eyeScaled (n : ℕ) (c : ℝ) : List (List ℝ) :=
  (List.range n).map fun i => (List.range n).map fun j => if i = j then c else 0

/-- `CDEPMPolicyEngine.__init__` (`engine.py` lines 15-53): it assigns the
five matrices unchecked, builds `x_hat = np.zeros((A.shape[0], 1))` and
`P = np.eye(A.shape[0]) * 0.1`, and stores the scalar parameters.  No
statement in the body can raise for list-shaped arrays, so the embedding
always returns `Except.ok`; an `Except.error ConfigError` outcome would
model a raised `ConfigError`, and no code path produces one. -/
noncomputable def rawInit (A B C Q R : List (List ℝ))
    (Kp Ki Kd pi_target channel_sigma : ℝ) : Except ConfigError RawEngine :=
  Except.ok
    { A := A, B := B, C := C, Q := Q, R := R
      x_hat := (List.range A.length).map fun _ => (0 : ℝ)
      P := eyeScaled A.length 0.1
      Kp := Kp, Ki := Ki, Kd := Kd
      pi_target := pi_target, channel_sigma := channel_sigma
      u_prev := 0, e_prev := 0, e_int := 0 }

/-- A matrix has `r` rows, each of length `c`. -/
def shapeIs (M : List (List ℝ)) (r c : ℕ) : Bool :=
  M.length == r && M.all fun row => row.length == c

/-- Modelled from the spec (§3 SystemMatrices): `A : n×n`, `B : n×1`,
`C : m×n`, `Q : n×n`, `R : m×m` with `n = A.length`, `m = C.length` —
the mutual-conformability condition whose violation is claimed to fail
construction. -/
def spec_conformable (A B C Q R : List (List ℝ)) : Bool :=
  shapeIs A A.length A.length && shapeIs B A.length 1 &&
  shapeIs C C.length A.length && shapeIs Q A.length A.length &&
  shapeIs R C.length C.length

/-- A 2×2 system matrix together with a non-conformable 3×1 input
matrix `B` (the 2×2 `A` requires a 2×1 `B`). -/
noncomputable def A2 : List (List ℝ) := [[0.8, 0.1], [0.1, 0.7]]

noncomputable def B3 : List (List ℝ) := [[0.2], [0.1], [0.3]]

noncomputable def C2 : List (List ℝ) := [[1, 0], [0, 1]]

noncomputable def Q2 : List (List ℝ) := [[0.01, 0], [0, 0.01]]

noncomputable def R2 : List (List ℝ) := [[0.05, 0], [0, 0.05]]

end Raw

/-- C4 counterexample: constructing the engine with non-conformable
shapes (2×2 `A` with a 3×1 `B`) succeeds — `__init__` performs no
conformability validation and raises no `ConfigError`, contradicting the
claim that every non-conformable input fails at construction time. -/
theorem rawInit_nonconformable_ok :
    Raw.spec_conformable Raw.A2 Raw.B3 Raw.C2 Raw.Q2 Raw.R2 = false ∧
    (Raw.rawInit Raw.A2 Raw.B3 Raw.C2 Raw.Q2 Raw.R2
      0.5 0.05 0.1 0.02 0.1).isOk = true :=
  ⟨rfl, rfl⟩

/-- C4 amended: construction never fails — `__init__` stores the matrices
without any conformability validation, so every input (conformable or
not) is accepted at construction time; shape errors can only surface
later, inside the update methods. -/
theorem rawInit_never_fails (A B C Q R : List (List ℝ))
    (Kp Ki Kd pi_target channel_sigma : ℝ) :
    (Raw.rawInit A B C Q R Kp Ki Kd pi_target channel_sigma).isOk = true := rfl

/-- C5: a singleton grid returns exactly the gains `(Kp0, Ki0, Kd0)`, the
loss of the single direct `evaluate_policy` call started from the same
generator state, and its history (the single candidate always beats the
initial `np.inf`); moreover, with a non-None seed, the per-configuration
evaluation inside the tuner is independent of the ambient generator state,
so it coincides with the standalone call with that seed. -/
theorem coarse_grid_search_singleton (rng : CDEPM.NpRandom)
    (kp ki kd pi_target channel_sigma : ℝ) (T : ℕ) (seed : Option ℕ) (g : ℕ) :
    (RL.coarse_grid_search rng [kp] [ki] [kd] pi_target channel_sigma T seed g
      = (some (kp, ki, kd),
         ((RL.evaluate_policy rng kp ki kd pi_target channel_sigma T seed g).1 : EReal),
         some (RL.evaluate_policy rng kp ki kd pi_target channel_sigma T seed g).2.1,
         (RL.evaluate_policy rng kp ki kd pi_target channel_sigma T seed g).2.2)) ∧
    (∀ s g1 g2 kp2 ki2 kd2,
      RL.evaluate_policy rng kp2 ki2 kd2 pi_target channel_sigma T (some s) g1
        = RL.evaluate_policy rng kp2 ki2 kd2 pi_target channel_sigma T (some s) g2) := by
  constructor
  · simp [RL.coarse_grid_search, RL.combos, RL.tuneStep, EReal.coe_lt_top]
  · intro s g1 g2 kp2 ki2 kd2
    rfl

/-- C2: Two `simulate_cdpm` calls with identical arguments and the same
non-None seed produce element-wise identical histories in every field:
when `seed = some s` the generator state is reset to `seedState s`, so the
ambient generator states `g1`, `g2` are irrelevant and the two traces
coincide. -/
theorem simulate_cdpm_seed_deterministic (rng : CDEPM.NpRandom) (T : ℕ)
    (p : CDEPM.Params) (s : ℕ) (g1 g2 : ℕ) :
    (CDEPM.simulate_cdpm rng T p (some s) g1).1.pi_true
        = (CDEPM.simulate_cdpm rng T p (some s) g2).1.pi_true ∧
    (CDEPM.simulate_cdpm rng T p (some s) g1).1.y_true
        = (CDEPM.simulate_cdpm rng T p (some s) g2).1.y_true ∧
    (CDEPM.simulate_cdpm rng T p (some s) g1).1.pi_hat
        = (CDEPM.simulate_cdpm rng T p (some s) g2).1.pi_hat ∧
    (CDEPM.simulate_cdpm rng T p (some s) g1).1.y_hat
        = (CDEPM.simulate_cdpm rng T p (some s) g2).1.y_hat ∧
    (CDEPM.simulate_cdpm rng T p (some s) g1).1.u
        = (CDEPM.simulate_cdpm rng T p (some s) g2).1.u ∧
    (CDEPM.simulate_cdpm rng T p (some s) g1).1.u_eff
        = (CDEPM.simulate_cdpm rng T p (some s) g2).1.u_eff :=
  ⟨rfl, rfl, rfl, rfl, rfl, rfl⟩
